import Mathlib

/-!
Shallow embedding of the XLSX cleaner core (`src/main.py`) of the
SMB-Management-System repository, together with theorems checking the
specification's claims against it.

Python strings are modelled as `List Char`; spreadsheet cell values as the
`Cell` type below (`None`, int, float, text).  Floats are modelled by `ℚ`
(exact arithmetic); `str.lower` is modelled on the ASCII range, which is
what the header and product-name vocabulary of the program uses.  Python
dicts (which preserve insertion order and update values in place) are
modelled as association lists with the `dget`/`dset`/`dsetdefault`
operations.  `openpyxl` I/O is abstracted to lists of rows of cells; the
one file-system test (`file_path.exists()`) becomes a boolean parameter.
-/

namespace Cleaner

/-- Convenience: the character list of a string literal. -/
def pys (s : String) : List Char := s.data

/-- Characters matched by the `\s` class (and by `str.strip`) in the source's
regular expressions, for the ASCII range. -/
def isPySpace (c : Char) : Bool :=
  c == ' ' || c == '\t' || c == '\n' || c == '\r' || c == '\x0b' || c == '\x0c'

/-- Model of `str.strip()`: drop whitespace at both ends. -/
def pyStrip (l : List Char) : List Char :=
  ((l.dropWhile isPySpace).reverse.dropWhile isPySpace).reverse

/-- Model of `str.lower()` (ASCII range), character by character. -/
def pyLower (l : List Char) : List Char := l.map Char.toLower

/-- Model of `re.sub(r"[\s_-]+", "", s)`: every whitespace, underscore or
hyphen character is deleted. -/
def deleteSeps (l : List Char) : List Char :=
  l.filter (fun c => !(isPySpace c || c == '_' || c == '-'))

/-- Model of `re.sub(r"\s+", " ", s)`: each maximal run of whitespace is
replaced by a single space. -/
def collapseWs : List Char → List Char
  | [] => []
  | [c] => if isPySpace c then [' '] else [c]
  | a :: b :: l =>
      if isPySpace a then
        if isPySpace b then collapseWs (b :: l) else ' ' :: collapseWs (b :: l)
      else a :: collapseWs (b :: l)

/-- Association-list lookup (Python `dict.get(k)` / `k in d`). -/
def dget {α β : Type} [DecidableEq α] : List (α × β) → α → Option β
  | [], _ => Option.none
  | p :: d, k => if p.1 = k then some p.2 else dget d k

/-- Association-list lookup with default (Python `dict.get(k, v)`). -/
def dgetD {α β : Type} [DecidableEq α] (d : List (α × β)) (k : α) (v : β) : β :=
  (dget d k).getD v

/-- Association-list update (Python `d[k] = v`): replaces the value in place
when the key is present, appends at the end otherwise, preserving insertion
order exactly like a Python dict. -/
def dset {α β : Type} [DecidableEq α] : List (α × β) → α → β → List (α × β)
  | [], k, v => [(k, v)]
  | p :: d, k, v => if p.1 = k then (k, v) :: d else p :: dset d k v

/-- Association-list `setdefault` (Python `d.setdefault(k, v)`), value part. -/
def dsetdefault {α β : Type} [DecidableEq α] : List (α × β) → α → β → List (α × β)
  | [], k, v => [(k, v)]
  | p :: d, k, v => if p.1 = k then p :: d else p :: dsetdefault d k v

/-- The `HEADER_ALIASES` dict of the source, verbatim. -/
def HEADER_ALIASES : List (List Char × List Char) :=
  [ (pys "orderid", pys "order_id")
  , (pys "order_id", pys "order_id")
  , (pys "order id", pys "order_id")
  , (pys "id", pys "order_id")
  , (pys "qty", pys "quantity")
  , (pys "quantity", pys "quantity")
  , (pys "totalquantity", pys "total_quantity")
  , (pys "total_quantity", pys "total_quantity")
  , (pys "total quantity", pys "total_quantity")
  , (pys "total_qty", pys "total_quantity") ]

/-- The `DESIRED_COLUMNS` list of the source (canonical output labels). -/
def DESIRED_COLUMNS : List (List Char) :=
  [pys "order_id", pys "product_name", pys "quantity", pys "total_quantity"]

/-- `normalize_header` of the source: strip, lower, delete `[\s_-]+`, then
look the key up in `HEADER_ALIASES` (falling back to the key itself). -/
def normalize_header (name : List Char) : List Char :=
  let key := deleteSeps (pyLower (pyStrip name))
  (dget HEADER_ALIASES key).getD key

/-- Spreadsheet cell values as delivered by `values_only` iteration:
empty cell (`None`), integer, float, or text. -/
inductive Cell where
  | none
  | int (z : ℤ)
  | float (q : ℚ)
  | str (s : List Char)
deriving DecidableEq, Repr, Inhabited

/-- Values written to output cells: `None`, an int, a float, or text carried
through unchanged. -/
inductive Disp where
  | none
  | int (z : ℤ)
  | float (q : ℚ)
  | str (s : List Char)
deriving DecidableEq, Repr, Inhabited

/-- Decimal digits of a natural number. -/
def natStr (n : ℕ) : List Char := Nat.toDigits 10 n

/-- Decimal rendering of an integer. -/
def intStr (z : ℤ) : List Char :=
  if z < 0 then '-' :: natStr z.natAbs else natStr z.natAbs

/-- Model rendering of a float value (`str` on a Python float).  Exact digit
strings of floats are immaterial to every claim; what matters is that this is
a fixed total function. -/
def floatStr (q : ℚ) : List Char :=
  if q.den = 1 then intStr q.num ++ pys ".0"
  else intStr q.num ++ '/' :: natStr q.den

/-- Model of Python `str(value)` on a cell value (`str(None) = "None"`). -/
def cellStr : Cell → List Char
  | Cell.none => pys "None"
  | Cell.int z => intStr z
  | Cell.float q => floatStr q
  | Cell.str s => s

/-- A raw cell value carried through unchanged to an output cell. -/
def cellDisp : Cell → Disp
  | Cell.none => Disp.none
  | Cell.int z => Disp.int z
  | Cell.float q => Disp.float q
  | Cell.str s => Disp.str s

/-- Numeric value of a decimal digit character. -/
def digitVal (c : Char) : ℕ := c.toNat - 48

/-- Value of a non-empty decimal digit string (`int(digits)`). -/
def digitsVal (ds : List Char) : ℕ :=
  ds.foldl (fun a c => 10 * a + digitVal c) 0

/-- Model of `float(s)` on text: optional surrounding whitespace, optional
sign, then digits with an optional fractional part (the decimal core of
Python's accepted float syntax).  Anything else fails. -/
def strFloat? (s : List Char) : Option ℚ :=
  let t := pyStrip s
  let su : ℚ × List Char :=
    match t with
    | '-' :: r => (-1, r)
    | '+' :: r => (1, r)
    | _ => (1, t)
  let ip := su.2.takeWhile Char.isDigit
  let r1 := su.2.dropWhile Char.isDigit
  match r1 with
  | [] => if ip.isEmpty then Option.none else some (su.1 * (digitsVal ip : ℚ))
  | '.' :: r2 =>
      let fp := r2.takeWhile Char.isDigit
      let r3 := r2.dropWhile Char.isDigit
      if !r3.isEmpty then Option.none
      else if ip.isEmpty && fp.isEmpty then Option.none
      else some (su.1 * ((digitsVal ip : ℚ) + (digitsVal fp : ℚ) / (10 : ℚ) ^ fp.length))
  | _ => Option.none

/-- `parse_quantity` of the source: `None` fails, numbers coerce, text goes
through `float(...)`; failures yield `None`. -/
def parse_quantity : Cell → Option ℚ
  | Cell.none => Option.none
  | Cell.int z => some (z : ℚ)
  | Cell.float q => some q
  | Cell.str s => strFloat? s

/-- `format_number` of the source: `None` stays `None`; a float with integral
value displays as an int; other numbers display unchanged. -/
def format_number : Option ℚ → Disp
  | Option.none => Disp.none
  | some q => if q.den = 1 then Disp.int q.num else Disp.float q

/-- `normalize_product_name` of the source: `None` becomes the empty key,
otherwise lower-case, strip, and collapse internal whitespace runs. -/
def normalize_product_name (c : Cell) : List Char :=
  match c with
  | Cell.none => []
  | _ => collapseWs (pyLower (pyStrip (cellStr c)))

/-- Insertion of an element into a sorted list, before the first element it
compares `le` to.  Used to model Python's (stable) sorting. -/
def insertLe {α : Type} (le : α → α → Bool) (a : α) : List α → List α
  | [] => [a]
  | b :: l => if le a b then a :: b :: l else b :: insertLe le a l

/-- Stable insertion sort.  For a comparator that is a total preorder this is
extensionally equal to any stable sort, in particular to Python's Timsort:
the output is uniquely determined by sortedness plus stability. -/
def isortLe {α : Type} (le : α → α → Bool) : List α → List α
  | [] => []
  | a :: l => insertLe le a (isortLe le l)

/-- Model of `re.match(r"productname(\d*)", key)`'s captured group: a match
exists exactly when the key begins with the literal prefix, and the group is
the maximal digit run following it. -/
def nameMatch (key : List Char) : Option ℕ :=
  if (pys "productname").isPrefixOf key then some (groupNum (key.drop 11))
  else Option.none
where
  /-- `int(match.group(_) or "1")`: value of the digit run, defaulting to 1. -/
  groupNum (rest : List Char) : ℕ :=
    let ds := rest.takeWhile Char.isDigit
    if ds.isEmpty then 1 else digitsVal ds

/-- Model of `re.match(r"(productquantity|quantity)(\d*)", key)`: ordered
alternation of the two literal prefixes, then the maximal digit run. -/
def qtyMatch (key : List Char) : Option ℕ :=
  if (pys "productquantity").isPrefixOf key then some (nameMatch.groupNum (key.drop 15))
  else if (pys "quantity").isPrefixOf key then some (nameMatch.groupNum (key.drop 8))
  else Option.none

/-- State built by the header-resolution loop of `clean_excel`:
`order_col`, `product_name_cols`, `quantity_cols`. -/
structure HeaderConfig where
  order_col : Option ℕ
  product_name_cols : List (ℕ × ℕ)
  quantity_cols : List (ℕ × ℕ)
deriving DecidableEq, Repr

/-- One iteration of the header loop: normalize the header, record an
order-id column (with `continue`), otherwise try both role patterns. -/
def resolveStep (st : HeaderConfig) (ic : ℕ × List Char) : HeaderConfig :=
  let key := normalize_header ic.2
  if key = pys "order_id" then { st with order_col := some ic.1 }
  else
    let st1 :=
      match nameMatch key with
      | some n => { st with product_name_cols := dset st.product_name_cols n ic.1 }
      | Option.none => st
    match qtyMatch key with
    | some n => { st1 with quantity_cols := dset st1.quantity_cols n ic.1 }
    | Option.none => st1

/-- The header-resolution loop over the (0-based) enumerated header row.
Header cells are taken as their text (`cell.value or ""`). -/
def resolveHeaders (headers : List (List Char)) : HeaderConfig :=
  headers.enum.foldl resolveStep ⟨Option.none, [], []⟩

/-- The resolved columns once the fatal checks have passed. -/
structure Cols where
  order_col : ℕ
  product_name_cols : List (ℕ × ℕ)
  quantity_cols : List (ℕ × ℕ)
deriving DecidableEq, Repr

/-- `row[i] if i < len(row) else None` — an absent cell is `None`. -/
def cellAt (row : List Cell) (i : ℕ) : Cell := row.getD i Cell.none

/-- `sorted(set(product_name_cols) | set(quantity_cols))`. -/
def groupNums (cfg : Cols) : List ℕ :=
  isortLe (fun a b => decide (a ≤ b))
    ((cfg.product_name_cols.map Prod.fst ++ cfg.quantity_cols.map Prod.fst).dedup)

/-- The product-name and quantity cells of group `num` in a data row
(`None` when the group lacks that column or the row is short). -/
def groupCells (cfg : Cols) (row : List Cell) (num : ℕ) : Cell × Cell :=
  ( match dget cfg.product_name_cols num with
    | some i => cellAt row i
    | Option.none => Cell.none
  , match dget cfg.quantity_cols num with
    | some i => cellAt row i
    | Option.none => Cell.none )

/-- One extracted record (the dict appended to `extracted_rows`). -/
structure Record where
  product_key : List Char
  order_id : Cell
  product_name : Cell
  quantity_display : Disp
  row_index : ℕ
deriving DecidableEq, Repr

instance : Inhabited Record := ⟨⟨[], Cell.none, Cell.none, Disp.none, 0⟩⟩

/-- The record emitted for group `num` of a data row, with `row_index = idx`. -/
def mkRecord (cfg : Cols) (row : List Cell) (idx num : ℕ) : Record :=
  let pc := groupCells cfg row num
  { product_key := normalize_product_name pc.1
  , order_id := cellAt row cfg.order_col
  , product_name := pc.1
  , quantity_display :=
      match parse_quantity pc.2 with
      | some q => format_number (some q)
      | Option.none => cellDisp pc.2
  , row_index := idx }

/-- The accumulation state of the extraction pass: `extracted_rows` plus the
three per-product dicts. -/
structure ExtractState where
  extracted_rows : List Record
  product_totals : List (List Char × ℚ)
  product_has_numeric : List (List Char × Bool)
  product_display_names : List (List Char × Cell)
deriving DecidableEq, Repr

/-- The empty state all four accumulators start from. -/
def initState : ExtractState := ⟨[], [], [], []⟩

/-- The body of the inner `for num in sorted(...)` loop of `clean_excel`. -/
def processGroup (cfg : Cols) (row : List Cell) (st : ExtractState) (num : ℕ) :
    ExtractState :=
  let pc := groupCells cfg row num
  let qty_value := parse_quantity pc.2
  if pc.1 = Cell.none ∧ pc.2 = Cell.none then st
  else
    let product_key := normalize_product_name pc.1
    let dn :=
      if product_key ≠ [] ∧ (dget st.product_display_names product_key).isNone then
        dset st.product_display_names product_key pc.1
      else st.product_display_names
    let tot_hn : List (List Char × ℚ) × List (List Char × Bool) :=
      match qty_value with
      | some q =>
          ( dset st.product_totals product_key (dgetD st.product_totals product_key 0 + q)
          , dset st.product_has_numeric product_key true )
      | Option.none => (dsetdefault st.product_totals product_key 0, st.product_has_numeric)
    { extracted_rows :=
        st.extracted_rows ++ [mkRecord cfg row st.extracted_rows.length num]
    , product_totals := tot_hn.1
    , product_has_numeric := tot_hn.2
    , product_display_names := dn }

/-- One data row of the outer extraction loop: skip it when the order-id
cell is `None`, otherwise run every group. -/
def processRow (cfg : Cols) (st : ExtractState) (row : List Cell) : ExtractState :=
  if cellAt row cfg.order_col = Cell.none then st
  else (groupNums cfg).foldl (processGroup cfg row) st

/-- The whole extraction pass over the data rows (rows 2..N of the sheet). -/
def extractAll (cfg : Cols) (rows : List (List Cell)) : ExtractState :=
  rows.foldl (processRow cfg) initState

/-- Strict lexicographic comparison of strings by code point — Python `<`
on `str`. -/
def strLt : List Char → List Char → Bool
  | [], [] => false
  | [], _ :: _ => true
  | _ :: _, [] => false
  | a :: as, b :: bs => decide (a < b) || (decide (a = b) && strLt as bs)

/-- `item["product_key"] or "￿"` — the empty key is replaced by the
would-be-maximal sentinel string. -/
def sentinelKey (r : Record) : List Char :=
  if r.product_key = [] then ['￿'] else r.product_key

/-- `sort_key` of the source: `(product_key or "￿", str(order_id),
row_index)`. -/
def sort_key (r : Record) : List Char × List Char × ℕ :=
  (sentinelKey r, cellStr r.order_id, r.row_index)

/-- Python's `≤` on the sort-key triples (lexicographic tuple comparison). -/
def keyLe (x y : List Char × List Char × ℕ) : Bool :=
  strLt x.1 y.1 ||
    (decide (x.1 = y.1) &&
      (strLt x.2.1 y.2.1 || (decide (x.2.1 = y.2.1) && decide (x.2.2 ≤ y.2.2))))

/-- Record comparison used by `extracted_rows.sort(key=sort_key)`. -/
def recordLe (a b : Record) : Bool := keyLe (sort_key a) (sort_key b)

/-- `extracted_rows.sort(key=sort_key)` — a stable sort by `sort_key`. -/
def sortRecords (l : List Record) : List Record := isortLe recordLe l

/-- `total_for_product_key` of the source: the formatted running total when
the key ever saw a numeric quantity, else `None`. -/
def total_for_product_key (st : ExtractState) (key : List Char) : Disp :=
  if dgetD st.product_has_numeric key false then format_number (dget st.product_totals key)
  else Disp.none

/-- `finalize_group` of the source, as the writes it performs: the value put
in the total column (column 4) of the group's first row, and the merged
range it creates when the group spans more than one row. -/
def finalize_group (tot : List Char → Disp) (key : List Char) (startRow endRow : ℕ) :
    List (ℕ × Disp) × List (ℕ × ℕ) :=
  ([(startRow, tot key)], if startRow < endRow then [(startRow, endRow)] else [])

/-- The grouping loop over the sorted records, after its first iteration:
`cur` is the current product key, `startRow` the Excel row where the current
group started, `excelRow` the next Excel row to be written. -/
def writeLoop (tot : List Char → Disp) (cur : List Char) :
    ℕ → ℕ → List Record → List (ℕ × Disp) × List (ℕ × ℕ)
  | startRow, excelRow, [] => finalize_group tot cur startRow (excelRow - 1)
  | startRow, excelRow, item :: rest =>
      if item.product_key = cur then writeLoop tot cur startRow (excelRow + 1) rest
      else
        let f := finalize_group tot cur startRow (excelRow - 1)
        let w := writeLoop tot item.product_key excelRow (excelRow + 1) rest
        (f.1 ++ w.1, f.2 ++ w.2)

/-- All total-cell writes and merged ranges produced by the grouping loop
(data starts on Excel row 2; the header occupies row 1). -/
def writeTotals (tot : List Char → Disp) : List Record → List (ℕ × Disp) × List (ℕ × ℕ)
  | [] => ([], [])
  | item :: rest => writeLoop tot item.product_key 2 3 rest

/-- The four cells appended to the "Cleaned" sheet for one record (the total
column is left `None`; `finalize_group` fills the group's first row). -/
def outputRow (r : Record) : List Disp :=
  [cellDisp r.order_id, cellDisp r.product_name, r.quantity_display, Disp.none]

/-- The `summary_rows` comprehension before sorting: for each non-empty key
with a numeric value, its display name (first-seen raw name, defaulting to
the key itself) paired with its total, in dict-insertion order. -/
def summaryCandidates (st : ExtractState) : List (Cell × ℚ) :=
  st.product_totals.filterMap (fun p =>
    if p.1 = [] then Option.none
    else if dgetD st.product_has_numeric p.1 false = false then Option.none
    else some (dgetD st.product_display_names p.1 (Cell.str p.1), p.2))

/-- `summary_rows.sort(key=lambda x: x[1], reverse=True)` — a stable sort by
total, descending. -/
def summary_rows (st : ExtractState) : List (Cell × ℚ) :=
  isortLe (fun a b => decide (b.2 ≤ a.2)) (summaryCandidates st)

/-- The "Best-selling product" section: present exactly when the ranked list
is non-empty, holding its first entry (with the formatted total). -/
def bestSection (st : ExtractState) : Option (Cell × Disp) :=
  match summary_rows st with
  | [] => Option.none
  | p :: _ => some (p.1, format_number (some p.2))

/-- The three fatal failures of `clean_excel`. -/
inductive CleanError where
  | fileNotFound
  | missingOrderIdColumn
  | noProductColumns
deriving DecidableEq, Repr

/-- The externally observable output of a successful run. -/
structure CleanOutput where
  cleanedRows : List (List Disp)
  totalCells : List (ℕ × Disp)
  merges : List (ℕ × ℕ)
  summaryRanking : List (Cell × ℚ)
  best : Option (Cell × Disp)
deriving DecidableEq, Repr

/-- `clean_excel` of the source: fatal checks in order (missing file, no
order-id column, no product columns), then extraction, sorting, grouped
writing, and the summary. -/
def clean_excel (fileExists : Bool) (headers : List (List Char))
    (dataRows : List (List Cell)) : Except CleanError CleanOutput :=
  if fileExists = false then Except.error CleanError.fileNotFound
  else
    let hc := resolveHeaders headers
    match hc.order_col with
    | Option.none => Except.error CleanError.missingOrderIdColumn
    | some oc =>
      if hc.product_name_cols = [] ∧ hc.quantity_cols = [] then
        Except.error CleanError.noProductColumns
      else
        let cfg : Cols := ⟨oc, hc.product_name_cols, hc.quantity_cols⟩
        let st := extractAll cfg dataRows
        let sorted := sortRecords st.extracted_rows
        let w := writeTotals (total_for_product_key st) sorted
        Except.ok ⟨sorted.map outputRow, w.1, w.2, summary_rows st, bestSection st⟩

/-! ### Characterizations used by the claim statements -/

/-- The indices of all headers whose normalized key is "order_id". -/
def orderIdIdxs (hs : List (List Char)) : List ℕ :=
  (hs.enum.filter (fun p => decide (normalize_header p.2 = pys "order_id"))).map Prod.fst

/-- The records one data row contributes, in ascending group order: a group
whose product-name and quantity cells are both empty contributes nothing,
any other group contributes exactly one record.  `base` is the row index of
the first record emitted. -/
def emitRow (cfg : Cols) (row : List Cell) : ℕ → List ℕ → List Record
  | _, [] => []
  | base, n :: ns =>
      let pc := groupCells cfg row n
      if pc.1 = Cell.none ∧ pc.2 = Cell.none then emitRow cfg row base ns
      else mkRecord cfg row base n :: emitRow cfg row (base + 1) ns

/-- The parsed numeric quantity a stored record contributed, recovered from
its display value (numeric quantities display as formatted numbers, failed
parses as `None` or raw text). -/
def recordQty (r : Record) : Option ℚ :=
  match r.quantity_display with
  | Disp.int z => some (z : ℚ)
  | Disp.float q => some q
  | _ => Option.none

/-- The records belonging to one product key. -/
def keyRecords (rows : List Record) (key : List Char) : List Record :=
  rows.filter (fun r => decide (r.product_key = key))

/-- The sum of the numeric quantities of a key's records. -/
def keySum (rows : List Record) (key : List Char) : ℚ :=
  ((keyRecords rows key).filterMap recordQty).sum

/-- Whether any record of the key carries a numeric quantity. -/
def keyHasNumeric (rows : List Record) (key : List Char) : Bool :=
  (keyRecords rows key).any (fun r => (recordQty r).isSome)

/-- The aggregation invariant of the extraction pass: the totals dict holds
exactly the keys with records, mapping each to the sum of its numeric
quantities, and the has-numeric dict holds exactly the keys with a numeric
record. -/
def StateInv (st : ExtractState) : Prop :=
  ∀ key : List Char,
    dget st.product_totals key =
      (if keyRecords st.extracted_rows key = [] then Option.none
       else some (keySum st.extracted_rows key))
    ∧ dget st.product_has_numeric key =
      (if keyHasNumeric st.extracted_rows key then some true else Option.none)

/-- Decomposition of a record list into its maximal runs of equal product
key. -/
def runs : List Record → List (List Record)
  | [] => []
  | a :: l =>
      match runs l with
      | (b :: g) :: gs =>
          if a.product_key = b.product_key then (a :: b :: g) :: gs
          else [a] :: (b :: g) :: gs
      | [] :: gs => [a] :: [] :: gs
      | [] => [[a]]

/-- The Excel row on which each run starts, given the row of the first. -/
def runStarts : ℕ → List (List Record) → List ℕ
  | _, [] => []
  | s, g :: gs => s :: runStarts (s + g.length) gs

/-- Run-by-run restatement of the grouping loop: one `finalize_group` per
run, at the run's start row, spanning its length. -/
def writeRuns (tot : List Char → Disp) :
    ℕ → List (List Record) → List (ℕ × Disp) × List (ℕ × ℕ)
  | _, [] => ([], [])
  | excelRow, g :: gs =>
      let f := finalize_group tot g.headI.product_key excelRow (excelRow + g.length - 1)
      let w := writeRuns tot (excelRow + g.length) gs
      (f.1 ++ w.1, f.2 ++ w.2)

/-- A record with the empty product key (extracted from a row with a present
order id, a blank product-name cell and a quantity cell). -/
def recEmpty : Record := ⟨[], Cell.int 1, Cell.none, Disp.none, 0⟩

/-- A record whose product key starts with the sentinel code point U+FFFF
(extracted from a product name beginning with that character). -/
def recHigh : Record := ⟨['￿', 'a'], Cell.int 1, Cell.str ['￿', 'a'], Disp.none, 1⟩

/-! ### Generic helper lemmas -/

theorem toNat_ofNat_valid (n : ℕ) (h : Nat.isValidChar n) : (Char.ofNat n).toNat = n := by
  unfold Char.ofNat
  rw [dif_pos h]
  rfl

theorem toLower_toLower (c : Char) : c.toLower.toLower = c.toLower := by
  unfold Char.toLower
  by_cases h : c.toNat ≥ 65 ∧ c.toNat ≤ 90
  · rw [if_pos h]
    have hv : Nat.isValidChar (c.toNat + 32) := Or.inl (by omega)
    have h2 : (Char.ofNat (c.toNat + 32)).toNat = c.toNat + 32 := toNat_ofNat_valid _ hv
    rw [if_neg (by rw [h2]; omega)]
  · rw [if_neg h, if_neg h]

theorem dropWhile_eq_self_of {α : Type} (p : α → Bool) (l : List α)
    (h : ∀ c ∈ l, p c = false) : l.dropWhile p = l := by
  cases l with
  | nil => rfl
  | cons a l => simp [List.dropWhile, h a (by simp)]

theorem map_eq_self_of {α : Type} (f : α → α) (l : List α)
    (h : ∀ c ∈ l, f c = c) : l.map f = l := by
  induction l with
  | nil => rfl
  | cons a l ih =>
      simp only [List.map_cons, h a (by simp)]
      rw [ih (fun c hc => h c (by simp [hc]))]

theorem dget_eq_some_mem {α β : Type} [DecidableEq α] (d : List (α × β)) (k : α) (v : β)
    (h : dget d k = some v) : v ∈ d.map Prod.snd := by
  induction d with
  | nil => simp [dget] at h
  | cons p d ih =>
      by_cases hp : p.1 = k
      · simp [dget, hp] at h
        simp [h]
      · simp only [dget, if_neg hp] at h
        simp [ih h]

theorem dget_dset_self {α β : Type} [DecidableEq α] (d : List (α × β)) (k : α) (v : β) :
    dget (dset d k v) k = some v := by
  induction d with
  | nil => simp [dget, dset]
  | cons p d ih =>
      by_cases hp : p.1 = k
      · simp [dset, hp, dget]
      · simp [dset, hp, dget, ih]

theorem dget_dset_ne {α β : Type} [DecidableEq α] (d : List (α × β)) (k k' : α) (v : β)
    (h : k' ≠ k) : dget (dset d k v) k' = dget d k' := by
  have hk : k ≠ k' := Ne.symm h
  induction d with
  | nil => simp [dget, dset, hk]
  | cons p d ih =>
      by_cases hp : p.1 = k
      · have hp' : p.1 ≠ k' := by rw [hp]; exact hk
        simp [dset, hp, dget, hk, hp']
      · by_cases hp' : p.1 = k'
        · simp [dset, hp, dget, hp', h]
        · simp [dset, hp, dget, hp', ih]

theorem dget_dsetdefault_self {α β : Type} [DecidableEq α] (d : List (α × β)) (k : α) (v : β) :
    dget (dsetdefault d k v) k = some ((dget d k).getD v) := by
  induction d with
  | nil => simp [dget, dsetdefault]
  | cons p d ih =>
      by_cases hp : p.1 = k
      · simp [dsetdefault, hp, dget]
      · simp [dsetdefault, hp, dget, ih]

theorem dget_dsetdefault_ne {α β : Type} [DecidableEq α] (d : List (α × β)) (k k' : α) (v : β)
    (h : k' ≠ k) : dget (dsetdefault d k v) k' = dget d k' := by
  have hk : k ≠ k' := Ne.symm h
  induction d with
  | nil => simp [dget, dsetdefault, hk]
  | cons p d ih =>
      by_cases hpk : p.1 = k
      · simp [dsetdefault, hpk, dget]
      · by_cases hp : p.1 = k'
        · simp [dsetdefault, hpk, hp, dget, h]
        · simp [dsetdefault, hpk, hp, dget, ih]

/-! ### Idempotence of header normalization (claim C7) -/

/-- Every character surviving `deleteSeps` fails the separator classes. -/
theorem deleteSeps_mem {c : Char} {l : List Char} (h : c ∈ deleteSeps l) :
    isPySpace c = false ∧ (c == '_') = false ∧ (c == '-') = false := by
  unfold deleteSeps at h
  have := List.of_mem_filter h
  simp only [Bool.not_eq_true', Bool.or_eq_false_iff] at this
  exact ⟨this.1.1, this.1.2, this.2⟩

theorem pyStrip_deleteSeps (l : List Char) : pyStrip (deleteSeps l) = deleteSeps l := by
  unfold pyStrip
  rw [dropWhile_eq_self_of _ _ (fun c hc => (deleteSeps_mem hc).1)]
  rw [dropWhile_eq_self_of _ _ (fun c hc => (deleteSeps_mem (List.mem_reverse.mp hc)).1)]
  exact List.reverse_reverse _

theorem pyLower_deleteSeps_pyLower (l : List Char) :
    pyLower (deleteSeps (pyLower l)) = deleteSeps (pyLower l) := by
  apply map_eq_self_of
  intro c hc
  have hmem : c ∈ pyLower l := List.mem_of_mem_filter hc
  obtain ⟨d, _, hd⟩ := List.mem_map.mp hmem
  rw [← hd]
  exact toLower_toLower d

theorem deleteSeps_deleteSeps (l : List Char) : deleteSeps (deleteSeps l) = deleteSeps l := by
  apply List.filter_eq_self.mpr
  intro c hc
  have h := deleteSeps_mem hc
  simp [h.1, h.2.1, h.2.2]

/-- The normalized key (before the alias table) is a fixed point of the
strip-lower-delete composition. -/
theorem nf_fixed (x : List Char) :
    deleteSeps (pyLower (pyStrip (deleteSeps (pyLower (pyStrip x))))) =
      deleteSeps (pyLower (pyStrip x)) := by
  rw [pyStrip_deleteSeps, pyLower_deleteSeps_pyLower, deleteSeps_deleteSeps]

/-- All alias-table values are fixed points of `normalize_header`. -/
theorem alias_values_fixed :
    ∀ v ∈ HEADER_ALIASES.map Prod.snd, normalize_header v = v := by decide

/-- Claim C7: header normalization is idempotent — `normalize(normalize(x)) =
normalize(x)` for every string `x` — and alias-stable: "Order ID", "orderid"
and "ORDER_ID" all normalize to the same key. -/
theorem claim_C7 :
    (∀ x : List Char, normalize_header (normalize_header x) = normalize_header x)
    ∧ normalize_header (pys "Order ID") = normalize_header (pys "orderid")
    ∧ normalize_header (pys "orderid") = normalize_header (pys "ORDER_ID") := by
  refine ⟨fun x => ?_, by decide, by decide⟩
  have hx : normalize_header x =
      (dget HEADER_ALIASES (deleteSeps (pyLower (pyStrip x)))).getD
        (deleteSeps (pyLower (pyStrip x))) := rfl
  cases hd : dget HEADER_ALIASES (deleteSeps (pyLower (pyStrip x))) with
  | none =>
      rw [hx, hd, Option.getD_none]
      show (dget HEADER_ALIASES
        (deleteSeps (pyLower (pyStrip (deleteSeps (pyLower (pyStrip x))))))).getD _ = _
      rw [nf_fixed, hd, Option.getD_none]
  | some v =>
      rw [hx, hd, Option.getD_some]
      exact alias_values_fixed v (dget_eq_some_mem _ _ _ hd)

/-! ### Claims C8 and C10: header alias and prefix-based role matching -/

/-- Counterexample to claim C8 as stated: header resolution does not map
"Total_Qty" to the canonical total-quantity label.  Normalization deletes the
underscore first, producing the key "totalqty", which the alias table (whose
relevant key is the underscored spelling "total_qty") does not contain; the
claimed label "total_quantity" is not produced. -/
theorem claim_C8_counterexample :
    normalize_header (pys "Total_Qty") = pys "totalqty"
    ∧ normalize_header (pys "Total_Qty") ≠ pys "total_quantity"
    ∧ pys "totalqty" ∉ DESIRED_COLUMNS := by decide

/-- Claim C8 (amended): header "Total_Qty" normalizes to "totalqty" and is
assigned no role at all — neither `ProductName(n)` nor `Quantity(n)` nor the
order-id column — while header "Product Name 2" resolves to `ProductName(2)`. -/
theorem claim_C8 :
    nameMatch (normalize_header (pys "Total_Qty")) = Option.none
    ∧ qtyMatch (normalize_header (pys "Total_Qty")) = Option.none
    ∧ normalize_header (pys "Total_Qty") ≠ pys "order_id"
    ∧ nameMatch (normalize_header (pys "Product Name 2")) = some 2
    ∧ resolveHeaders [pys "Total_Qty", pys "Product Name 2"] =
        ⟨Option.none, [(2, 1)], []⟩ := by decide

/-! ### Claim C10: prefix-based role matching -/

theorem isPrefixOf_append_self (l t : List Char) : l.isPrefixOf (l ++ t) = true := by
  induction l with
  | nil => simp [List.isPrefixOf]
  | cons a l ih => simp [List.isPrefixOf, ih]

/-- Claim C10: role matching is prefix-based — any key beginning with
"productname" (resp. "quantity" / "productquantity") matches, whatever
follows, with the group index read from the digit run after the prefix
(default 1); in particular "productnames" gives `ProductName(1)` and
"quantity2x" gives `Quantity(2)`. -/
theorem claim_C10 :
    (∀ tail : List Char,
      nameMatch (pys "productname" ++ tail) = some (nameMatch.groupNum tail))
    ∧ (∀ tail : List Char,
      qtyMatch (pys "quantity" ++ tail) = some (nameMatch.groupNum tail))
    ∧ (∀ tail : List Char,
      qtyMatch (pys "productquantity" ++ tail) = some (nameMatch.groupNum tail))
    ∧ nameMatch (pys "productnames") = some 1
    ∧ qtyMatch (pys "quantity2x") = some 2 := by
  refine ⟨fun tail => ?_, fun tail => ?_, fun tail => ?_, by decide, by decide⟩
  · unfold nameMatch
    rw [if_pos (isPrefixOf_append_self _ _)]
    have h : (pys "productname").length = 11 := rfl
    rw [← h, List.drop_left]
  · unfold qtyMatch
    rw [if_neg (by simp [pys, List.isPrefixOf]), if_pos (isPrefixOf_append_self _ _)]
    have h : (pys "quantity").length = 8 := rfl
    rw [← h, List.drop_left]
  · unfold qtyMatch
    rw [if_pos (isPrefixOf_append_self _ _)]
    have h : (pys "productquantity").length = 15 := rfl
    rw [← h, List.drop_left]

/-! ### Claim C9: the order-id column requirement -/

theorem getLast?_cons {α : Type} (a : α) (xs : List α) :
    (a :: xs).getLast? = some ((xs.getLast?).getD a) := by
  induction xs generalizing a with
  | nil => rfl
  | cons b xs ih =>
      rw [List.getLast?_cons_cons, ih b]
      rfl

/-- `order_col` after folding the header loop from any starting state: the
index of the last order-id header, falling back to the starting value. -/
theorem foldl_order_col (l : List (ℕ × List Char)) :
    ∀ st : HeaderConfig,
      (l.foldl resolveStep st).order_col =
        (((l.filter (fun p => decide (normalize_header p.2 = pys "order_id"))).map
          Prod.fst).getLast?).or st.order_col := by
  induction l with
  | nil => intro st; simp
  | cons p l ih =>
      intro st
      rw [List.foldl_cons, ih]
      by_cases hp : normalize_header p.2 = pys "order_id"
      · have hstep : (resolveStep st p).order_col = some p.1 := by
          unfold resolveStep
          rw [if_pos hp]
        rw [hstep, List.filter_cons_of_pos (by simp [hp]), List.map_cons, getLast?_cons]
        cases hxl : ((l.filter (fun q => decide (normalize_header q.2 = pys "order_id"))).map
            Prod.fst).getLast? with
        | none => simp
        | some i => simp
      · have hstep : (resolveStep st p).order_col = st.order_col := by
          unfold resolveStep
          rw [if_neg hp]
          cases nameMatch (normalize_header p.2) with
          | none =>
              cases qtyMatch (normalize_header p.2) with
              | none => rfl
              | some n => rfl
          | some n =>
              cases qtyMatch (normalize_header p.2) with
              | none => rfl
              | some n2 => rfl
        rw [hstep, List.filter_cons_of_neg (by simp [hp])]

/-- Counterexample to claim C9 as stated: with headers "id", "order id",
"qty", two headers resolve to the order-id role, yet resolution succeeds
(taking the later index) and the whole transform produces output. -/
theorem claim_C9_counterexample :
    (orderIdIdxs [pys "id", pys "order id", pys "qty"]).length = 2
    ∧ (resolveHeaders [pys "id", pys "order id", pys "qty"]).order_col = some 1
    ∧ (clean_excel true [pys "id", pys "order id", pys "qty"] []).isOk = true := by
  refine ⟨by decide, by decide, by decide⟩

/-- Claim C9 (amended): header resolution requires at least one order-id
column — it fails exactly when no header resolves to the order-id role, and
otherwise succeeds with the index of the last such header. -/
theorem claim_C9 (hs : List (List Char)) :
    (resolveHeaders hs).order_col = (orderIdIdxs hs).getLast?
    ∧ ((resolveHeaders hs).order_col = Option.none ↔ orderIdIdxs hs = []) := by
  have h1 : (resolveHeaders hs).order_col = (orderIdIdxs hs).getLast? := by
    unfold resolveHeaders orderIdIdxs
    rw [foldl_order_col]
    exact Option.or_none
  refine ⟨h1, ?_⟩
  rw [h1]
  cases hxs : orderIdIdxs hs with
  | nil => simp
  | cons a xs => rw [getLast?_cons]; simp

/-! ### Claim C5: fatal errors and absorbed anomalies -/

/-- Claim C5: the transform fails, with a distinguishable error, exactly when
one of the three fatal conditions holds (missing input file, no order-id
header, no product-name or quantity header); the content of the data rows —
in particular unparseable quantity cells and rows with a missing order id —
never makes it abort. -/
theorem claim_C5 (fe : Bool) (hs : List (List Char)) (rows : List (List Cell)) :
    (clean_excel fe hs rows = Except.error CleanError.fileNotFound ↔ fe = false)
    ∧ (clean_excel fe hs rows = Except.error CleanError.missingOrderIdColumn ↔
        fe = true ∧ (resolveHeaders hs).order_col = Option.none)
    ∧ (clean_excel fe hs rows = Except.error CleanError.noProductColumns ↔
        fe = true ∧ (resolveHeaders hs).order_col ≠ Option.none
          ∧ (resolveHeaders hs).product_name_cols = []
          ∧ (resolveHeaders hs).quantity_cols = [])
    ∧ ((clean_excel fe hs rows).isOk = true ↔
        fe = true ∧ (resolveHeaders hs).order_col ≠ Option.none
          ∧ ¬((resolveHeaders hs).product_name_cols = []
              ∧ (resolveHeaders hs).quantity_cols = [])) := by
  cases fe with
  | false => simp [clean_excel, Except.isOk, Except.toBool]
  | true =>
      cases hoc : (resolveHeaders hs).order_col with
      | none => simp [clean_excel, hoc, Except.isOk, Except.toBool]
      | some oc =>
          by_cases hb : (resolveHeaders hs).product_name_cols = []
              ∧ (resolveHeaders hs).quantity_cols = []
          · simp [clean_excel, hoc, hb, Except.isOk, Except.toBool, hb.1, hb.2]
          · simp [clean_excel, hoc, hb, Except.isOk, Except.toBool]

/-- Witness for claim C5 at a concrete input: a run with a valid header row
and a data-row set containing an unparseable quantity and a missing order id
still succeeds. -/
theorem claim_C5_witness :
    (clean_excel true [pys "Order ID", pys "Product Name", pys "Qty"]
      [[Cell.int 1, Cell.str (pys "w"), Cell.str (pys "oops")],
       [Cell.none, Cell.str (pys "w"), Cell.int 2]]).isOk = true :=
  (claim_C5 true [pys "Order ID", pys "Product Name", pys "Qty"]
    [[Cell.int 1, Cell.str (pys "w"), Cell.str (pys "oops")],
     [Cell.none, Cell.str (pys "w"), Cell.int 2]]).2.2.2.mpr
    ⟨rfl, by decide, by decide⟩

/-! ### Claim C4: per-row record emission -/

theorem processGroup_skip (cfg : Cols) (row : List Cell) (st : ExtractState) (num : ℕ)
    (hc : (groupCells cfg row num).1 = Cell.none ∧ (groupCells cfg row num).2 = Cell.none) :
    processGroup cfg row st num = st := by
  simp only [processGroup]
  rw [if_pos hc]

theorem processGroup_emit_rows (cfg : Cols) (row : List Cell) (st : ExtractState) (num : ℕ)
    (hc : ¬((groupCells cfg row num).1 = Cell.none ∧ (groupCells cfg row num).2 = Cell.none)) :
    (processGroup cfg row st num).extracted_rows =
      st.extracted_rows ++ [mkRecord cfg row st.extracted_rows.length num] := by
  simp only [processGroup]
  rw [if_neg hc]

theorem foldl_processGroup_rows (cfg : Cols) (row : List Cell) (nums : List ℕ) :
    ∀ st : ExtractState,
      ((nums.foldl (processGroup cfg row) st).extracted_rows) =
        st.extracted_rows ++ emitRow cfg row st.extracted_rows.length nums := by
  induction nums with
  | nil => intro st; simp [emitRow]
  | cons n ns ih =>
      intro st
      rw [List.foldl_cons]
      by_cases hc : (groupCells cfg row n).1 = Cell.none ∧ (groupCells cfg row n).2 = Cell.none
      · rw [processGroup_skip cfg row st n hc, ih st]
        simp only [emitRow]
        rw [if_pos hc]
      · rw [ih (processGroup cfg row st n), processGroup_emit_rows cfg row st n hc]
        simp only [emitRow, List.length_append, List.length_cons, List.length_nil]
        rw [if_neg hc, List.append_assoc]
        rfl

/-- Claim C4: a data row whose order-id cell is empty contributes no records
at all; a row with a present order id contributes, over the group indices in
ascending order, exactly one record per group whose product-name or quantity
cell is non-empty, and nothing for a group where both are empty
(`emitRow` is precisely that description). -/
theorem claim_C4 (cfg : Cols) (st : ExtractState) (row : List Cell) :
    (processRow cfg st row).extracted_rows =
      if cellAt row cfg.order_col = Cell.none then st.extracted_rows
      else st.extracted_rows ++ emitRow cfg row st.extracted_rows.length (groupNums cfg) := by
  unfold processRow
  by_cases h : cellAt row cfg.order_col = Cell.none
  · rw [if_pos h, if_pos h]
  · rw [if_neg h, if_neg h, foldl_processGroup_rows]

/-! ### Stable insertion sort: permutation, sortedness, stability -/

theorem mem_insertLe {α : Type} (le : α → α → Bool) (a x : α) (l : List α) :
    x ∈ insertLe le a l ↔ x = a ∨ x ∈ l := by
  induction l with
  | nil => simp [insertLe]
  | cons b l ih =>
      by_cases h : le a b
      · simp [insertLe, h]
      · simp [insertLe, h, ih]
        tauto

theorem insertLe_perm {α : Type} (le : α → α → Bool) (a : α) (l : List α) :
    (insertLe le a l).Perm (a :: l) := by
  induction l with
  | nil => simp [insertLe]
  | cons b l ih =>
      by_cases h : le a b
      · simp [insertLe, h]
      · rw [insertLe, if_neg h]
        exact (ih.cons b).trans (List.Perm.swap a b l)

theorem isortLe_perm {α : Type} (le : α → α → Bool) (l : List α) :
    (isortLe le l).Perm l := by
  induction l with
  | nil => simp [isortLe]
  | cons a l ih => exact (insertLe_perm le a (isortLe le l)).trans (ih.cons a)

theorem insertLe_pairwise {α : Type} (le : α → α → Bool)
    (htot : ∀ x y, le x y = true ∨ le y x = true)
    (htrans : ∀ x y z, le x y = true → le y z = true → le x z = true)
    (a : α) (l : List α) (hl : l.Pairwise (fun x y => le x y = true)) :
    (insertLe le a l).Pairwise (fun x y => le x y = true) := by
  induction l with
  | nil => simp [insertLe]
  | cons b l ih =>
      rw [List.pairwise_cons] at hl
      by_cases h : le a b
      · rw [insertLe, if_pos h]
        refine List.Pairwise.cons ?_ (List.Pairwise.cons hl.1 hl.2)
        intro x hx
        rcases List.mem_cons.mp hx with hx | hx
        · rw [hx]
          exact h
        · exact htrans a b x h (hl.1 x hx)
      · rw [insertLe, if_neg h]
        refine List.Pairwise.cons ?_ (ih hl.2)
        intro x hx
        rcases (mem_insertLe le a x l).mp hx with hx | hx
        · rw [hx]
          rcases htot a b with hab | hba
          · exact absurd hab h
          · exact hba
        · exact hl.1 x hx

theorem isortLe_pairwise {α : Type} (le : α → α → Bool)
    (htot : ∀ x y, le x y = true ∨ le y x = true)
    (htrans : ∀ x y z, le x y = true → le y z = true → le x z = true)
    (l : List α) : (isortLe le l).Pairwise (fun x y => le x y = true) := by
  induction l with
  | nil => simp [isortLe]
  | cons a l ih => exact insertLe_pairwise le htot htrans a _ ih

theorem filter_insertLe_neg {α : Type} (le : α → α → Bool) (p : α → Bool) (a : α)
    (l : List α) (ha : p a = false) :
    (insertLe le a l).filter p = l.filter p := by
  induction l with
  | nil => simp [insertLe, ha]
  | cons b l ih =>
      by_cases h : le a b
      · simp [insertLe, h, ha]
      · rw [insertLe, if_neg h]
        by_cases hb : p b
        · simp [List.filter_cons, hb, ih]
        · simp [List.filter_cons, hb, ih]

theorem filter_insertLe_pos {α : Type} (le : α → α → Bool) (p : α → Bool) (a : α)
    (l : List α) (ha : p a = true)
    (h : ∀ c ∈ l, p c = true → le a c = true) :
    (insertLe le a l).filter p = a :: l.filter p := by
  induction l with
  | nil => simp [insertLe, ha]
  | cons b l ih =>
      by_cases hab : le a b
      · simp [insertLe, hab, List.filter_cons, ha]
      · rw [insertLe, if_neg hab]
        have hb : p b = false := by
          cases hpb : p b with
          | false => rfl
          | true => exact absurd (h b (by simp) hpb) hab
        rw [List.filter_cons_of_neg (by simp [hb]), List.filter_cons_of_neg (by simp [hb])]
        exact ih (fun c hc hpc => h c (by simp [hc]) hpc)

/-- Stability of the insertion sort: the elements satisfying a predicate on
which the comparator is everywhere true (a tie class) keep their relative
order. -/
theorem isortLe_filter {α : Type} (le : α → α → Bool) (p : α → Bool)
    (htie : ∀ x y, p x = true → p y = true → le x y = true) (l : List α) :
    (isortLe le l).filter p = l.filter p := by
  induction l with
  | nil => simp [isortLe]
  | cons a l ih =>
      cases ha : p a with
      | false =>
          rw [isortLe, filter_insertLe_neg le p a _ ha, ih,
            List.filter_cons_of_neg (by simp [ha])]
      | true =>
          rw [isortLe, filter_insertLe_pos le p a _ ha ?_, ih,
            List.filter_cons_of_pos (by simp [ha])]
          intro c hc hpc
          exact htie a c ha hpc

/-! ### Claim C2: ordering of the output rows -/

theorem strLt_irrefl (l : List Char) : strLt l l = false := by
  induction l with
  | nil => rfl
  | cons a l ih => simp [strLt, ih]

theorem strLt_asymm : ∀ {a b : List Char}, strLt a b = true → strLt b a = false
  | [], b :: bs, _ => rfl
  | a :: as, b :: bs, h => by
      simp only [strLt, Bool.or_eq_true, Bool.and_eq_true, decide_eq_true_eq] at h ⊢
      simp only [Bool.or_eq_false_iff, Bool.and_eq_false_iff, decide_eq_false_iff_not]
      rcases h with h | ⟨hab, h⟩
      · exact ⟨not_lt_of_lt h, Or.inl (ne_of_gt h)⟩
      · subst hab
        refine ⟨lt_irrefl a, Or.inr (strLt_asymm h)⟩

theorem strLt_trans : ∀ {a b c : List Char},
    strLt a b = true → strLt b c = true → strLt a c = true
  | [], b :: bs, c :: cs, _, _ => rfl
  | a :: as, b :: bs, c :: cs, hab, hbc => by
      simp only [strLt, Bool.or_eq_true, Bool.and_eq_true, decide_eq_true_eq] at hab hbc ⊢
      rcases hab with hab | ⟨hab, h1⟩
      · rcases hbc with hbc | ⟨hbc, h2⟩
        · exact Or.inl (lt_trans hab hbc)
        · exact Or.inl (hbc ▸ hab)
      · subst hab
        rcases hbc with hbc | ⟨hbc, h2⟩
        · exact Or.inl hbc
        · exact Or.inr ⟨hbc, strLt_trans h1 h2⟩

theorem strLt_tri (a b : List Char) : strLt a b = true ∨ a = b ∨ strLt b a = true := by
  induction a generalizing b with
  | nil =>
      cases b with
      | nil => exact Or.inr (Or.inl rfl)
      | cons y bs => exact Or.inl rfl
  | cons x as ih =>
      cases b with
      | nil => exact Or.inr (Or.inr rfl)
      | cons y bs =>
          rcases lt_trichotomy x y with h | h | h
          · exact Or.inl (by simp [strLt, h])
          · subst h
            rcases ih bs with h | h | h
            · exact Or.inl (by simp [strLt, h])
            · exact Or.inr (Or.inl (by rw [h]))
            · exact Or.inr (Or.inr (by simp [strLt, h]))
          · exact Or.inr (Or.inr (by simp [strLt, h]))

theorem keyLe_total (x y : List Char × List Char × ℕ) :
    keyLe x y = true ∨ keyLe y x = true := by
  obtain ⟨x1, x2, x3⟩ := x
  obtain ⟨y1, y2, y3⟩ := y
  simp only [keyLe, Bool.or_eq_true, Bool.and_eq_true, decide_eq_true_eq]
  rcases strLt_tri x1 y1 with h | h | h
  · exact Or.inl (Or.inl h)
  · subst h
    rcases strLt_tri x2 y2 with h | h | h
    · exact Or.inl (Or.inr ⟨rfl, Or.inl h⟩)
    · subst h
      rcases Nat.le_total x3 y3 with h | h
      · exact Or.inl (Or.inr ⟨rfl, Or.inr ⟨rfl, h⟩⟩)
      · exact Or.inr (Or.inr ⟨rfl, Or.inr ⟨rfl, h⟩⟩)
    · exact Or.inr (Or.inr ⟨rfl, Or.inl h⟩)
  · exact Or.inr (Or.inl h)

theorem keyLe_trans (x y z : List Char × List Char × ℕ)
    (hxy : keyLe x y = true) (hyz : keyLe y z = true) : keyLe x z = true := by
  obtain ⟨x1, x2, x3⟩ := x
  obtain ⟨y1, y2, y3⟩ := y
  obtain ⟨z1, z2, z3⟩ := z
  simp only [keyLe, Bool.or_eq_true, Bool.and_eq_true, decide_eq_true_eq] at hxy hyz ⊢
  rcases hxy with h1 | ⟨h1, hxy⟩
  · rcases hyz with h2 | ⟨h2, hyz⟩
    · exact Or.inl (strLt_trans h1 h2)
    · exact Or.inl (h2 ▸ h1)
  · subst h1
    rcases hyz with h2 | ⟨h2, hyz⟩
    · exact Or.inl h2
    · subst h2
      refine Or.inr ⟨rfl, ?_⟩
      rcases hxy with h3 | ⟨h3, hxy⟩
      · rcases hyz with h4 | ⟨h4, hyz⟩
        · exact Or.inl (strLt_trans h3 h4)
        · exact Or.inl (h4 ▸ h3)
      · subst h3
        rcases hyz with h4 | ⟨h4, hyz⟩
        · exact Or.inl h4
        · exact Or.inr ⟨h4, le_trans hxy hyz⟩

theorem recordLe_total (a b : Record) : recordLe a b = true ∨ recordLe b a = true :=
  keyLe_total (sort_key a) (sort_key b)

theorem recordLe_trans (a b c : Record) (h1 : recordLe a b = true)
    (h2 : recordLe b c = true) : recordLe a c = true :=
  keyLe_trans (sort_key a) (sort_key b) (sort_key c) h1 h2

/-- Counterexample to claim C2 as stated: the sentinel used for the empty
product key is the single character U+FFFF, and a real key may start with
that very character and compare above it.  Sorting a record with the empty
key together with a record whose key is "￿a" puts the empty-key record
first, so the empty key does not sort after every non-empty key. -/
theorem claim_C2_counterexample :
    sortRecords [recEmpty, recHigh] = [recEmpty, recHigh]
    ∧ recEmpty.product_key = []
    ∧ recHigh.product_key ≠ [] := by
  have hle : recordLe recEmpty recHigh = true := by decide
  refine ⟨?_, rfl, by decide⟩
  show insertLe recordLe recEmpty (insertLe recordLe recHigh []) = [recEmpty, recHigh]
  rw [insertLe, insertLe, if_pos hle]

/-- Claim C2 (amended): the writer orders the records ascending by the
triple `(productKey or sentinel, str(orderId), sequence)` — the exact
comparison of the source, where only the empty key is replaced by the
one-character sentinel string U+FFFF; consequently any record appearing
after an empty-key record cannot have a non-empty key lexicographically
below that sentinel — i.e. the empty key sorts after every real key except
those at or above U+FFFF, not after all of them. -/
theorem claim_C2 (l : List Record) :
    (sortRecords l).Pairwise (fun a b => recordLe a b = true)
    ∧ (sortRecords l).Perm l
    ∧ (∀ i j (hi : i < (sortRecords l).length) (hj : j < (sortRecords l).length),
        i < j → ((sortRecords l).get ⟨i, hi⟩).product_key = [] →
        ((sortRecords l).get ⟨j, hj⟩).product_key ≠ [] →
        strLt ((sortRecords l).get ⟨j, hj⟩).product_key ['￿'] = false) := by
  have hsort : (sortRecords l).Pairwise (fun a b => recordLe a b = true) :=
    isortLe_pairwise recordLe recordLe_total
      (fun x y z => recordLe_trans x y z) l
  refine ⟨hsort, isortLe_perm recordLe l, ?_⟩
  intro i j hi hj hij hempty hne
  cases hlt : strLt ((sortRecords l).get ⟨j, hj⟩).product_key ['￿'] with
  | false => rfl
  | true =>
      exfalso
      have hpair := (List.pairwise_iff_get.mp hsort) ⟨i, hi⟩ ⟨j, hj⟩ hij
      unfold recordLe keyLe at hpair
      simp only [Bool.or_eq_true, Bool.and_eq_true, decide_eq_true_eq] at hpair
      have hsi : (sort_key ((sortRecords l).get ⟨i, hi⟩)).1 = ['￿'] := by
        show sentinelKey _ = _
        unfold sentinelKey
        rw [if_pos hempty]
      have hsj : (sort_key ((sortRecords l).get ⟨j, hj⟩)).1 =
          ((sortRecords l).get ⟨j, hj⟩).product_key := by
        show sentinelKey _ = _
        unfold sentinelKey
        rw [if_neg hne]
      rw [hsi, hsj] at hpair
      rcases hpair with h | ⟨h, hrest⟩
      · rw [strLt_asymm hlt] at h
        exact Bool.false_ne_true h
      · rw [← h] at hlt
        rw [strLt_irrefl] at hlt
        exact Bool.false_ne_true hlt

/-- Witness for claim C2 at a concrete input: sorting the two-record list of
the counterexample and instantiating the positional property at its two
positions. -/
theorem claim_C2_witness :
    strLt ((sortRecords [recHigh, recEmpty]).get ⟨1, by decide⟩).product_key ['￿'] = false :=
  (claim_C2 [recHigh, recEmpty]).2.2 0 1 (by decide) (by decide) (by decide)
    (by decide) (by decide)

/-! ### Claim C6: the summary's ranked list and best-selling product -/

/-- Claim C6: the ranked list is a permutation of the candidate list — the
(display name, total) pairs of exactly the non-empty keys with at least one
numeric quantity, in the aggregator's encounter order — sorted by total
descending; entries with equal totals keep their encounter order (stability);
and the best-selling-product section exists precisely when the ranked list is
non-empty, holding its first entry. -/
theorem claim_C6 (st : ExtractState) :
    (summary_rows st).Perm (summaryCandidates st)
    ∧ (summary_rows st).Pairwise (fun a b => b.2 ≤ a.2)
    ∧ (∀ q : ℚ, (summary_rows st).filter (fun p => decide (p.2 = q)) =
        (summaryCandidates st).filter (fun p => decide (p.2 = q)))
    ∧ bestSection st =
        (summary_rows st).head?.map (fun p => (p.1, format_number (some p.2))) := by
  refine ⟨isortLe_perm _ _, ?_, ?_, ?_⟩
  · have h := isortLe_pairwise (fun a b : Cell × ℚ => decide (b.2 ≤ a.2))
      (fun x y => by
        rcases le_total y.2 x.2 with h | h
        · exact Or.inl (by simpa using h)
        · exact Or.inr (by simpa using h))
      (fun x y z hxy hyz => by
        simp only [decide_eq_true_eq] at hxy hyz ⊢
        exact le_trans hyz hxy)
      (summaryCandidates st)
    exact h.imp (fun hab => by simpa using hab)
  · intro q
    apply isortLe_filter
    intro x y hx hy
    simp only [decide_eq_true_eq] at hx hy ⊢
    rw [hx, hy]
  · unfold bestSection
    cases hs : summary_rows st with
    | nil => rfl
    | cons p l => rfl

/-! ### Claim C1: aggregation correctness -/

theorem recordQty_mkRecord (cfg : Cols) (row : List Cell) (idx num : ℕ) :
    recordQty (mkRecord cfg row idx num) = parse_quantity (groupCells cfg row num).2 := by
  cases hq : parse_quantity (groupCells cfg row num).2 with
  | some q =>
      simp only [mkRecord, recordQty, hq]
      by_cases hd : q.den = 1
      · simp only [format_number, if_pos hd]
        rw [(Rat.den_eq_one_iff q).mp hd]
      · simp only [format_number, if_neg hd]
  | none =>
      simp only [mkRecord, recordQty, hq]
      cases hc : (groupCells cfg row num).2 with
      | none => rfl
      | int z => rw [hc] at hq; simp [parse_quantity] at hq
      | float q => rw [hc] at hq; simp [parse_quantity] at hq
      | str s => rfl

theorem keyRecords_append (rows : List Record) (r : Record) (key : List Char) :
    keyRecords (rows ++ [r]) key =
      keyRecords rows key ++ (if r.product_key = key then [r] else []) := by
  unfold keyRecords
  rw [List.filter_append]
  by_cases h : r.product_key = key
  · rw [if_pos h, List.filter_cons_of_pos (by simp [h])]
    rfl
  · rw [if_neg h, List.filter_cons_of_neg (by simp [h])]
    rfl

theorem keySum_append_match (rows : List Record) (r : Record) (key : List Char)
    (h : r.product_key = key) :
    keySum (rows ++ [r]) key = keySum rows key + (recordQty r).getD 0 := by
  unfold keySum
  rw [keyRecords_append, if_pos h, List.filterMap_append, List.sum_append]
  cases hq : recordQty r with
  | none => simp [hq]
  | some q => simp [hq]

theorem keySum_append_other (rows : List Record) (r : Record) (key : List Char)
    (h : ¬ r.product_key = key) :
    keySum (rows ++ [r]) key = keySum rows key := by
  unfold keySum
  rw [keyRecords_append, if_neg h, List.append_nil]

theorem keyHasNumeric_append_match (rows : List Record) (r : Record) (key : List Char)
    (h : r.product_key = key) :
    keyHasNumeric (rows ++ [r]) key =
      (keyHasNumeric rows key || (recordQty r).isSome) := by
  unfold keyHasNumeric
  rw [keyRecords_append, if_pos h, List.any_append]
  simp

theorem keyHasNumeric_append_other (rows : List Record) (r : Record) (key : List Char)
    (h : ¬ r.product_key = key) :
    keyHasNumeric (rows ++ [r]) key = keyHasNumeric rows key := by
  unfold keyHasNumeric
  rw [keyRecords_append, if_neg h, List.append_nil]

theorem keySum_nil_of_empty (rows : List Record) (key : List Char)
    (h : keyRecords rows key = []) : keySum rows key = 0 := by
  unfold keySum
  rw [h]
  rfl

theorem processGroup_totals_num (cfg : Cols) (row : List Cell) (st : ExtractState)
    (num : ℕ) (q : ℚ)
    (hc : ¬((groupCells cfg row num).1 = Cell.none ∧ (groupCells cfg row num).2 = Cell.none))
    (hq : parse_quantity (groupCells cfg row num).2 = some q) :
    (processGroup cfg row st num).product_totals =
      dset st.product_totals (normalize_product_name (groupCells cfg row num).1)
        (dgetD st.product_totals (normalize_product_name (groupCells cfg row num).1) 0 + q)
    ∧ (processGroup cfg row st num).product_has_numeric =
      dset st.product_has_numeric (normalize_product_name (groupCells cfg row num).1) true := by
  simp only [processGroup, hq, if_neg hc]
  exact ⟨trivial, trivial⟩

theorem processGroup_totals_nonnum (cfg : Cols) (row : List Cell) (st : ExtractState)
    (num : ℕ)
    (hc : ¬((groupCells cfg row num).1 = Cell.none ∧ (groupCells cfg row num).2 = Cell.none))
    (hq : parse_quantity (groupCells cfg row num).2 = Option.none) :
    (processGroup cfg row st num).product_totals =
      dsetdefault st.product_totals (normalize_product_name (groupCells cfg row num).1) 0
    ∧ (processGroup cfg row st num).product_has_numeric = st.product_has_numeric := by
  simp only [processGroup, hq, if_neg hc]
  exact ⟨trivial, trivial⟩

theorem processGroup_inv (cfg : Cols) (row : List Cell) (num : ℕ) (st : ExtractState)
    (h : StateInv st) : StateInv (processGroup cfg row st num) := by
  by_cases hc : (groupCells cfg row num).1 = Cell.none ∧ (groupCells cfg row num).2 = Cell.none
  · rw [processGroup_skip cfg row st num hc]
    exact h
  · intro key
    have hrows := processGroup_emit_rows cfg row st num hc
    have hr : (mkRecord cfg row st.extracted_rows.length num).product_key =
        normalize_product_name (groupCells cfg row num).1 := rfl
    by_cases hkey : (mkRecord cfg row st.extracted_rows.length num).product_key = key
    · -- the emitted record belongs to this key
      have hpk : normalize_product_name (groupCells cfg row num).1 = key := hr.symm.trans hkey
      have hne : keyRecords (processGroup cfg row st num).extracted_rows key ≠ [] := by
        rw [hrows, keyRecords_append, if_pos hkey]
        simp
      have hd : dgetD st.product_totals key 0 = keySum st.extracted_rows key := by
        unfold dgetD
        cases hrec : keyRecords st.extracted_rows key with
        | nil =>
            rw [(h key).1, if_pos hrec, keySum_nil_of_empty _ _ hrec]
            rfl
        | cons a l =>
            rw [(h key).1, if_neg (by rw [hrec]; simp)]
            rfl
      cases hq : parse_quantity (groupCells cfg row num).2 with
      | some q =>
          obtain ⟨ht, hh⟩ := processGroup_totals_num cfg row st num q hc hq
          rw [hpk] at ht hh
          have hrq : recordQty (mkRecord cfg row st.extracted_rows.length num) = some q :=
            (recordQty_mkRecord cfg row st.extracted_rows.length num).trans hq
          constructor
          · rw [ht, dget_dset_self, if_neg hne]
            congr 1
            rw [hrows, keySum_append_match _ _ _ hkey, hrq, hd]
            simp
          · rw [hh, dget_dset_self]
            rw [hrows, keyHasNumeric_append_match _ _ _ hkey, hrq]
            simp
      | none =>
          obtain ⟨ht, hh⟩ := processGroup_totals_nonnum cfg row st num hc hq
          rw [hpk] at ht
          have hrq : recordQty (mkRecord cfg row st.extracted_rows.length num) = Option.none :=
            (recordQty_mkRecord cfg row st.extracted_rows.length num).trans hq
          constructor
          · rw [ht, dget_dsetdefault_self, if_neg hne]
            congr 1
            rw [hrows, keySum_append_match _ _ _ hkey, hrq]
            unfold dgetD at hd
            cases hrec : keyRecords st.extracted_rows key with
            | nil =>
                rw [(h key).1, if_pos hrec, keySum_nil_of_empty _ _ hrec]
                simp
            | cons a l =>
                rw [(h key).1, if_neg (by rw [hrec]; simp)]
                simp
          · rw [hh, (h key).2, hrows, keyHasNumeric_append_match _ _ _ hkey, hrq]
            simp
    · -- a record for a different key: nothing changes for this key
      have hrec : keyRecords (processGroup cfg row st num).extracted_rows key =
          keyRecords st.extracted_rows key := by
        rw [hrows, keyRecords_append, if_neg hkey, List.append_nil]
      have hsum : keySum (processGroup cfg row st num).extracted_rows key =
          keySum st.extracted_rows key := by
        rw [hrows, keySum_append_other _ _ _ hkey]
      have hhn : keyHasNumeric (processGroup cfg row st num).extracted_rows key =
          keyHasNumeric st.extracted_rows key := by
        rw [hrows, keyHasNumeric_append_other _ _ _ hkey]
      have hkey2 : ¬ normalize_product_name (groupCells cfg row num).1 = key := hr ▸ hkey
      cases hq : parse_quantity (groupCells cfg row num).2 with
      | some q =>
          obtain ⟨ht, hh⟩ := processGroup_totals_num cfg row st num q hc hq
          constructor
          · rw [ht, dget_dset_ne _ _ _ _ (fun hh2 => hkey2 (hh2.symm)), hrec, hsum]
            exact (h key).1
          · rw [hh, dget_dset_ne _ _ _ _ (fun hh2 => hkey2 (hh2.symm)), hhn]
            exact (h key).2
      | none =>
          obtain ⟨ht, hh⟩ := processGroup_totals_nonnum cfg row st num hc hq
          constructor
          · rw [ht, dget_dsetdefault_ne _ _ _ _ (fun hh2 => hkey2 (hh2.symm)), hrec, hsum]
            exact (h key).1
          · rw [hh, hhn]
            exact (h key).2

theorem foldl_processGroup_inv (cfg : Cols) (row : List Cell) (nums : List ℕ) :
    ∀ st : ExtractState, StateInv st →
      StateInv (nums.foldl (processGroup cfg row) st) := by
  induction nums with
  | nil => intro st h; exact h
  | cons n ns ih =>
      intro st h
      rw [List.foldl_cons]
      exact ih _ (processGroup_inv cfg row n st h)

theorem processRow_inv (cfg : Cols) (st : ExtractState) (row : List Cell)
    (h : StateInv st) : StateInv (processRow cfg st row) := by
  unfold processRow
  by_cases ho : cellAt row cfg.order_col = Cell.none
  · rw [if_pos ho]; exact h
  · rw [if_neg ho]; exact foldl_processGroup_inv cfg row (groupNums cfg) st h

theorem initState_inv : StateInv initState := by
  intro key
  constructor
  · simp [initState, dget, keyRecords]
  · simp [initState, dget, keyHasNumeric, keyRecords]

theorem extractAll_inv (cfg : Cols) (rows : List (List Cell)) :
    StateInv (extractAll cfg rows) := by
  unfold extractAll
  have : ∀ (l : List (List Cell)) (st : ExtractState), StateInv st →
      StateInv (l.foldl (processRow cfg) st) := by
    intro l
    induction l with
    | nil => intro st h; exact h
    | cons r l ih =>
        intro st h
        rw [List.foldl_cons]
        exact ih _ (processRow_inv cfg st r h)
  exact this rows initState initState_inv

/-- Claim C1: for every product key, the total the writer displays for that
key is the (formatted) sum of the quantities of the key's extracted records
that parsed as numbers; a key none of whose records had a numeric quantity
gets no value (`None`) — never `0`. -/
theorem claim_C1 (cfg : Cols) (dataRows : List (List Cell)) (key : List Char) :
    total_for_product_key (extractAll cfg dataRows) key =
      if keyHasNumeric (extractAll cfg dataRows).extracted_rows key = true
      then format_number (some (keySum (extractAll cfg dataRows).extracted_rows key))
      else Disp.none := by
  have h := extractAll_inv cfg dataRows key
  unfold total_for_product_key dgetD
  rw [h.2]
  by_cases hk : keyHasNumeric (extractAll cfg dataRows).extracted_rows key = true
  · rw [if_pos hk, if_pos hk]
    simp only [Option.getD_some, if_true]
    rw [h.1]
    have hne : keyRecords (extractAll cfg dataRows).extracted_rows key ≠ [] := by
      intro hnil
      rw [keyHasNumeric, hnil] at hk
      simp at hk
    rw [if_neg hne]
  · rw [if_neg hk, if_neg hk]
    simp only [Option.getD_none, Bool.false_eq_true, if_false]

/-! ### Claim C3: maximal runs, total cells and merged ranges -/

theorem runs_cons (a : Record) (l : List Record) :
    runs (a :: l) =
      (a :: l.takeWhile (fun x => decide (x.product_key = a.product_key))) ::
        runs (l.dropWhile (fun x => decide (x.product_key = a.product_key))) := by
  induction l generalizing a with
  | nil => simp [runs]
  | cons b l ih =>
      rw [runs, ih b]
      dsimp only
      by_cases h : a.product_key = b.product_key
      · rw [if_pos h]
        have hpred : (fun x : Record => decide (x.product_key = a.product_key)) =
            (fun x : Record => decide (x.product_key = b.product_key)) := by
          funext x
          rw [h]
        rw [List.takeWhile_cons, List.dropWhile_cons]
        rw [if_pos (by simp [h.symm]), if_pos (by simp [h.symm]), hpred]
      · rw [if_neg h]
        rw [List.takeWhile_cons, List.dropWhile_cons]
        have hb : ¬ (b.product_key = a.product_key) := fun hh => h hh.symm
        rw [if_neg (by simp [hb]), if_neg (by simp [hb]), ← ih b]

theorem runs_cons_ne_nil (a : Record) (l : List Record) : runs (a :: l) ≠ [] := by
  rw [runs_cons]
  exact List.cons_ne_nil _ _

/-- The runs of the suffix left by dropping a key's prefix are runs of the
whole list. -/
theorem mem_runs_dropWhile (a : Record) (l : List Record) :
    ∀ g ∈ runs (l.dropWhile (fun x => decide (x.product_key = a.product_key))),
      g ∈ runs l := by
  cases l with
  | nil => simp [runs]
  | cons b l2 =>
      intro g hg
      by_cases hab : b.product_key = a.product_key
      · rw [List.dropWhile_cons, if_pos (by simp [hab])] at hg
        have hpred : (fun x : Record => decide (x.product_key = a.product_key)) =
            (fun x : Record => decide (x.product_key = b.product_key)) := by
          funext x
          rw [hab]
        rw [hpred] at hg
        rw [runs_cons]
        exact List.mem_cons_of_mem _ hg
      · rw [List.dropWhile_cons, if_neg (by simp [hab])] at hg
        exact hg

theorem nil_not_mem_runs : ∀ (l : List Record), [] ∉ runs l
  | [] => by simp [runs]
  | a :: l => by
      rw [runs_cons]
      intro hmem
      rcases List.mem_cons.mp hmem with h | h
      · exact List.cons_ne_nil _ _ h.symm
      · exact nil_not_mem_runs l (mem_runs_dropWhile a l [] h)

theorem length_dropWhile_le {α : Type} (p : α → Bool) (l : List α) :
    (l.dropWhile p).length ≤ l.length := by
  induction l with
  | nil => simp
  | cons a l ih =>
      rw [List.dropWhile_cons]
      by_cases h : p a
      · rw [if_pos h]
        exact le_trans ih (Nat.le_succ _)
      · rw [if_neg h]

theorem runs_flatten_aux : ∀ (n : ℕ) (l : List Record), l.length ≤ n →
    (runs l).flatten = l := by
  intro n
  induction n with
  | zero =>
      intro l hl
      have : l = [] := List.length_eq_zero.mp (Nat.le_zero.mp hl)
      subst this
      simp [runs]
  | succ n ih =>
      intro l hl
      cases l with
      | nil => simp [runs]
      | cons a l2 =>
          rw [runs_cons, List.flatten_cons]
          rw [ih (l2.dropWhile (fun x => decide (x.product_key = a.product_key)))
            (by
              have h1 := length_dropWhile_le
                (fun x : Record => decide (x.product_key = a.product_key)) l2
              have h2 : l2.length + 1 ≤ n + 1 := hl
              omega)]
          rw [List.cons_append, List.takeWhile_append_dropWhile]

theorem runs_flatten (l : List Record) : (runs l).flatten = l :=
  runs_flatten_aux l.length l (le_refl _)

theorem runs_forall_key : ∀ (l : List Record), ∀ g ∈ runs l, g ≠ [] ∧
    ∀ x ∈ g, x.product_key = g.headI.product_key := by
  intro l
  induction l with
  | nil => simp [runs]
  | cons a l ih =>
      intro g hg
      rw [runs_cons] at hg
      rcases List.mem_cons.mp hg with hg | hg
      · subst hg
        refine ⟨List.cons_ne_nil _ _, ?_⟩
        intro x hx
        simp only [List.headI]
        rcases List.mem_cons.mp hx with hx | hx
        · rw [hx]
        · have := List.mem_takeWhile_imp hx
          simpa using this
      · exact ih g (mem_runs_dropWhile a l g hg)

theorem chain_runs_dropWhile (a : Record) (l : List Record)
    (P : List Record → List Record → Prop)
    (h : List.Chain' P (runs l)) :
    List.Chain' P (runs (l.dropWhile (fun x => decide (x.product_key = a.product_key)))) := by
  cases l with
  | nil => simp [runs]
  | cons b l2 =>
      by_cases hab : b.product_key = a.product_key
      · rw [List.dropWhile_cons, if_pos (by simp [hab])]
        have hpred : (fun x : Record => decide (x.product_key = a.product_key)) =
            (fun x : Record => decide (x.product_key = b.product_key)) := by
          funext x
          rw [hab]
        rw [hpred]
        rw [runs_cons] at h
        exact h.tail
      · rw [List.dropWhile_cons, if_neg (by simp [hab])]
        exact h

theorem dropWhile_head_false {α : Type} (p : α → Bool) :
    ∀ (l : List α) (y : α) (ys : List α), l.dropWhile p = y :: ys → p y = false := by
  intro l
  induction l with
  | nil => intro y ys h; simp at h
  | cons a l ih =>
      intro y ys h
      rw [List.dropWhile_cons] at h
      by_cases ha : p a
      · rw [if_pos ha] at h
        exact ih y ys h
      · rw [if_neg ha] at h
        cases h
        exact Bool.of_not_eq_true ha

theorem runs_chain : ∀ (l : List Record),
    List.Chain' (fun g1 g2 => g1.headI.product_key ≠ g2.headI.product_key) (runs l) := by
  intro l
  induction l with
  | nil => simp [runs]
  | cons a l ih =>
      rw [runs_cons]
      rw [List.chain'_cons']
      constructor
      · intro g2 hg2
        cases hd : l.dropWhile (fun x => decide (x.product_key = a.product_key)) with
        | nil => rw [hd] at hg2; simp [runs] at hg2
        | cons y ys =>
            rw [hd, runs_cons] at hg2
            simp only [List.head?_cons, Option.mem_def, Option.some_inj] at hg2
            have hy : decide (y.product_key = a.product_key) = false :=
              dropWhile_head_false _ l y ys hd
            simp only [decide_eq_false_iff_not] at hy
            rw [← hg2]
            simp only [List.headI]
            intro hcontra
            exact hy hcontra.symm
      · exact chain_runs_dropWhile a l _ ih

theorem writeLoop_const (tot : List Char → Disp) (cur : List Char) :
    ∀ (t : List Record), (∀ x ∈ t, x.product_key = cur) →
      ∀ (rest : List Record) (s e : ℕ),
        writeLoop tot cur s e (t ++ rest) = writeLoop tot cur s (e + t.length) rest := by
  intro t
  induction t with
  | nil =>
      intro _ rest s e
      simp
  | cons x t ih =>
      intro h rest s e
      rw [List.cons_append, writeLoop]
      rw [if_pos (h x (List.mem_cons_self x t))]
      rw [ih (fun y hy => h y (List.mem_cons_of_mem x hy)) rest s (e + 1)]
      have harith : e + 1 + t.length = e + (x :: t).length := by
        simp only [List.length_cons]
        omega
      rw [harith]

theorem writeLoop_eq (tot : List Char → Disp) :
    ∀ (n : ℕ) (l : List Record), l.length ≤ n →
      ∀ (cur : List Char) (s k : ℕ), 1 ≤ k →
        writeLoop tot cur s (s + k) l =
          ((finalize_group tot cur s
              (s + k + (l.takeWhile (fun x => decide (x.product_key = cur))).length - 1)).1 ++
            (writeRuns tot (s + k + (l.takeWhile (fun x => decide (x.product_key = cur))).length)
              (runs (l.dropWhile (fun x => decide (x.product_key = cur))))).1,
           (finalize_group tot cur s
              (s + k + (l.takeWhile (fun x => decide (x.product_key = cur))).length - 1)).2 ++
            (writeRuns tot (s + k + (l.takeWhile (fun x => decide (x.product_key = cur))).length)
              (runs (l.dropWhile (fun x => decide (x.product_key = cur))))).2) := by
  intro n
  induction n with
  | zero =>
      intro l hl cur s k hk
      have hnil : l = [] := List.length_eq_zero.mp (Nat.le_zero.mp hl)
      subst hnil
      simp [writeLoop, runs, writeRuns]
  | succ n ih =>
      intro l hl cur s k hk
      have hsplit := List.takeWhile_append_dropWhile (fun x => decide (x.product_key = cur)) l
      have htake : ∀ x ∈ l.takeWhile (fun x => decide (x.product_key = cur)),
          x.product_key = cur := by
        intro x hx
        have := List.mem_takeWhile_imp hx
        simpa using this
      conv_lhs => rw [← hsplit]
      rw [writeLoop_const tot cur _ htake _ s (s + k)]
      cases hd : l.dropWhile (fun x => decide (x.product_key = cur)) with
      | nil =>
          simp [writeLoop, runs, writeRuns, finalize_group]
      | cons y ys =>
          have hy : ¬ (y.product_key = cur) := by
            have h1 := dropWhile_head_false _ l y ys hd
            simpa using h1
          rw [writeLoop, if_neg hy]
          have hys : ys.length ≤ n := by
            have h1 := congrArg List.length hsplit
            rw [List.length_append, hd] at h1
            simp only [List.length_cons] at h1
            omega
          rw [ih ys hys y.product_key (s + k + (l.takeWhile
            (fun x => decide (x.product_key = cur))).length) 1 (le_refl 1)]
          rw [runs_cons y ys, writeRuns]
          simp only [List.headI, List.length_cons]
          have h2 : s + k + (l.takeWhile (fun x => decide (x.product_key = cur))).length + 1 +
              (ys.takeWhile (fun x => decide (x.product_key = y.product_key))).length =
              s + k + (l.takeWhile (fun x => decide (x.product_key = cur))).length +
              ((ys.takeWhile (fun x => decide (x.product_key = y.product_key))).length + 1) := by
            omega
          rw [h2]

theorem writeTotals_eq (tot : List Char → Disp) (l : List Record) :
    writeTotals tot l = writeRuns tot 2 (runs l) := by
  cases l with
  | nil => simp [writeTotals, runs, writeRuns]
  | cons a rest =>
      show writeLoop tot a.product_key 2 (2 + 1) rest = _
      rw [writeLoop_eq tot rest.length rest (le_refl _) a.product_key 2 1 (le_refl 1)]
      rw [runs_cons a rest, writeRuns]
      simp only [List.headI, List.length_cons]
      have h2 : 2 + 1 + (rest.takeWhile (fun x => decide (x.product_key = a.product_key))).length =
          2 + ((rest.takeWhile (fun x => decide (x.product_key = a.product_key))).length + 1) := by
        omega
      rw [h2]

theorem writeRuns_char (tot : List Char → Disp) :
    ∀ (rs : List (List Record)) (s : ℕ), (∀ g ∈ rs, g ≠ []) →
      (writeRuns tot s rs).1 =
        ((runStarts s rs).zip rs).map (fun p => (p.1, tot p.2.headI.product_key))
      ∧ (writeRuns tot s rs).2 =
        ((runStarts s rs).zip rs).filterMap
          (fun p => if 2 ≤ p.2.length then some (p.1, p.1 + p.2.length - 1) else Option.none) := by
  intro rs
  induction rs with
  | nil => intro s _; simp [writeRuns, runStarts]
  | cons g gs ih =>
      intro s hne
      have hg : g ≠ [] := hne g (List.mem_cons_self g gs)
      have hlen : 1 ≤ g.length := List.length_pos.mpr hg
      obtain ⟨ih1, ih2⟩ := ih (s + g.length) (fun g2 hg2 => hne g2 (List.mem_cons_of_mem g hg2))
      rw [writeRuns, runStarts]
      constructor
      · simp only [finalize_group, List.zip_cons_cons, List.map_cons]
        rw [ih1]
        rfl
      · simp only [finalize_group]
        rw [List.zip_cons_cons, List.filterMap_cons]
        by_cases h2 : 2 ≤ g.length
        · rw [if_pos (by omega : s < s + g.length - 1)]
          simp only [h2, if_pos h2]
          rw [ih2]
          rfl
        · rw [if_neg (by omega : ¬ s < s + g.length - 1)]
          simp only [if_neg h2]
          rw [ih2]
          rfl

theorem runStarts_le : ∀ (rs : List (List Record)) (s : ℕ), (∀ g ∈ rs, g ≠ []) →
    ∀ x ∈ runStarts s rs, s ≤ x := by
  intro rs
  induction rs with
  | nil => intro s _ x hx; simp [runStarts] at hx
  | cons g gs ih =>
      intro s hne x hx
      rw [runStarts] at hx
      rcases List.mem_cons.mp hx with hx | hx
      · rw [hx]
      · have hg : g ≠ [] := hne g (List.mem_cons_self g gs)
        have hlen : 1 ≤ g.length := List.length_pos.mpr hg
        have := ih (s + g.length) (fun g2 hg2 => hne g2 (List.mem_cons_of_mem g hg2)) x hx
        omega

theorem runStarts_pairwise : ∀ (rs : List (List Record)) (s : ℕ), (∀ g ∈ rs, g ≠ []) →
    (runStarts s rs).Pairwise (· < ·) := by
  intro rs
  induction rs with
  | nil => intro s _; simp [runStarts]
  | cons g gs ih =>
      intro s hne
      have hg : g ≠ [] := hne g (List.mem_cons_self g gs)
      have hlen : 1 ≤ g.length := List.length_pos.mpr hg
      have hrest : ∀ g2 ∈ gs, g2 ≠ [] := fun g2 hg2 => hne g2 (List.mem_cons_of_mem g hg2)
      rw [runStarts]
      refine List.Pairwise.cons ?_ (ih (s + g.length) hrest)
      intro x hx
      have := runStarts_le gs (s + g.length) hrest x hx
      omega

/-- Claim C3: the written rows decompose into maximal runs of equal product
key (they tile the record list, each is non-empty with a constant key, and
adjacent runs have different keys); the writer puts the aggregator's total
for the run's key exactly at each run's start row (the start rows are
strictly increasing, so no other row of a run receives a total), and it
creates exactly one merged range per run of length k ≥ 2, spanning rows
[start, start+k-1] of the total column — and no merged range for a run of
length 1. -/
theorem claim_C3 (st : ExtractState) (l : List Record) :
    (runs l).flatten = l
    ∧ (∀ g ∈ runs l, g ≠ [] ∧ ∀ x ∈ g, x.product_key = g.headI.product_key)
    ∧ List.Chain' (fun g1 g2 => g1.headI.product_key ≠ g2.headI.product_key) (runs l)
    ∧ (runStarts 2 (runs l)).Pairwise (· < ·)
    ∧ (writeTotals (total_for_product_key st) l).1 =
        ((runStarts 2 (runs l)).zip (runs l)).map
          (fun p => (p.1, total_for_product_key st p.2.headI.product_key))
    ∧ (writeTotals (total_for_product_key st) l).2 =
        ((runStarts 2 (runs l)).zip (runs l)).filterMap
          (fun p => if 2 ≤ p.2.length then some (p.1, p.1 + p.2.length - 1)
            else Option.none) := by
  have hne : ∀ g ∈ runs l, g ≠ [] := fun g hg => (runs_forall_key l g hg).1
  obtain ⟨hc1, hc2⟩ := writeRuns_char (total_for_product_key st) (runs l) 2 hne
  refine ⟨runs_flatten l, runs_forall_key l, runs_chain l,
    runStarts_pairwise (runs l) 2 hne, ?_, ?_⟩
  · rw [writeTotals_eq, hc1]
  · rw [writeTotals_eq, hc2]

/-- Witness for claim C3 at a concrete input: the single run of a one-record
list is non-empty and constant-keyed, obtained by instantiating the claim. -/
theorem claim_C3_witness :
    [recEmpty] ≠ [] ∧ ∀ x ∈ [recEmpty], x.product_key = [recEmpty].headI.product_key :=
  (claim_C3 initState [recEmpty]).2.1 [recEmpty] (by simp [runs])

end Cleaner
